import Mathlib

set_option maxRecDepth 40000

/-!
Shallow embedding of `src/rsa.py`, a textbook RSA demonstration.

Modelling conventions:
* Python integers are `Int` (arbitrary precision); loop counters that the
  code keeps non-negative are `Nat`.
* Python `%` and `//` on a positive modulus agree with `Int.emod` / `Int.ediv`
  and with `Nat.mod` / `Nat.div`, which is what we use.
* A function that can raise an exception is modelled with `Option`
  (`none` = the exception propagates).
* Python strings are modelled as `List Char`.
* The only nondeterminism (`getrandbits` / `randint`) is made explicit by
  passing the drawn values as parameters.
-/

/-- Result of `decode` in `rsa.py`.  For `n = 0` the Python function returns the
raw list `[0]` (a list holding the integer 0), while on the normal path it
returns a string; the two shapes are captured by the two constructors. -/
inductive DecodeResult where
  | numeric : List Nat → DecodeResult
  | text : List Char → DecodeResult
  deriving DecidableEq

/-- The `while n:` loop of `decode`: emits `chr(n % 26 + 97)` for each step,
least-significant digit first, halting when `n` reaches 0. -/
def decodeDigits (n : Nat) : List Char :=
  if _h : n = 0 then []
  else Char.ofNat (n % 26 + 97) :: decodeDigits (n / 26)
termination_by n
decreasing_by omega

/-- Embedding of `decode(n, b=26)` from `rsa.py`: returns the list `[0]` when
`n == 0`, otherwise the base-26 digit characters in reversed (most-significant
first) order, joined into a string. -/
def decode (n : Nat) : DecodeResult :=
  if n = 0 then DecodeResult.numeric [0]
  else DecodeResult.text (decodeDigits n).reverse

/-- Python's `str.lower` restricted to a single character (ASCII range, which
is all the program ever feeds it): uppercase letters move down by 32. -/
def pyLower (c : Char) : Char :=
  if 65 ≤ c.toNat ∧ c.toNat ≤ 90 then Char.ofNat (c.toNat + 32) else c

/-- The accumulation loop of `encode`: `m_num += i * 26 ** m_len` where
`m_len` starts at `len(m_list) - 1` and decreases, i.e. the head digit is
weighted by 26 to the length of the tail. -/
def encodeVals : List Int → Int
  | [] => 0
  | d :: ds => d * (26 : Int) ^ ds.length + encodeVals ds

/-- Embedding of `encode(message, b=26)` from `rsa.py`: lowercases the
message, maps each character to `ord(c) - 97`, and combines the digits
most-significant first. -/
def encode (message : List Char) : Int :=
  encodeVals (message.map fun c => ((pyLower c).toNat : Int) - 97)

/-- The `while remainder:` loop of `extended_gcd`.  The remainders are
natural numbers (the function starts from absolute values), the Bezout
coefficients are integers; `divmod` is Nat division/modulus. -/
def egcdLoop (last_remainder remainder : Nat) (last_x x last_y y : Int) :
    Nat × Int × Int :=
  if h : remainder = 0 then (last_remainder, last_x, last_y)
  else
    egcdLoop remainder (last_remainder % remainder)
      x (last_x - ((last_remainder / remainder : Nat) : Int) * x)
      y (last_y - ((last_remainder / remainder : Nat) : Int) * y)
termination_by remainder
decreasing_by exact Nat.mod_lt _ (Nat.pos_of_ne_zero h)

/-- Embedding of `extended_gcd(a0, b0)` from `rsa.py`: runs the Euclidean
loop on `abs(a0), abs(b0)` starting from `x, last_x, y, last_y = 0, 1, 1, 0`,
then flips the sign of each coefficient when the corresponding input was
negative. -/
def extended_gcd (a0 b0 : Int) : Int × Int × Int :=
  let t := egcdLoop a0.natAbs b0.natAbs 1 0 0 1
  ((t.1 : Int), t.2.1 * (if a0 < 0 then -1 else 1),
    t.2.2 * (if b0 < 0 then -1 else 1))

/-- Embedding of `mod_inv(a, m)` from `rsa.py`: `none` models the
`raise ValueError` taken when the gcd is not 1, otherwise the result is
`x % m`. -/
def mod_inv (a m : Int) : Option Int :=
  let t := extended_gcd a m
  if t.1 ≠ 1 then none else some (t.2.1 % m)

/-- The `while ex > 0:` loop of `mod_exp_55`: square the base and halve the
exponent when the low bit is 0, otherwise fold the base into the accumulator
and decrement.  The guard in `mod_exp_55` makes the exponent positive, so the
loop variable is a `Nat`. -/
def modExpLoop (b : Int) (ex : Nat) (modulo res : Int) : Int :=
  if _h : ex = 0 then res
  else if ex % 2 = 0 then modExpLoop ((b * b) % modulo) (ex / 2) modulo res
  else modExpLoop b (ex - 1) modulo ((b * res) % modulo)
termination_by ex
decreasing_by all_goals omega

/-- Embedding of `mod_exp_55(message, exponent, modulo)` from `rsa.py`.
The first line of the Python body is `if exponent <= 0: return 1`, so every
non-positive exponent (zero and all negative values) yields 1 — no exception
is ever raised. -/
def mod_exp_55 (message exponent modulo : Int) : Int :=
  if exponent ≤ 0 then 1
  else modExpLoop message exponent.toNat modulo 1

/-- The `for j in range(k_check - 1)` loop inside `check`, together with the
final `return x == num - 1`: `rounds` is the number of remaining iterations. -/
def checkLoop (x rounds num : Nat) : Bool :=
  match rounds with
  | 0 => x == num - 1
  | r + 1 => if x == num - 1 then true else checkLoop (x ^ 2 % num) r num

/-- Embedding of the inner function `check(a_check, k_check, num_sub, num)` of
`miller_rabin`; Python's three-argument `pow` is modular exponentiation. -/
def check (a_check k_check num_sub num : Nat) : Bool :=
  let x := a_check ^ num_sub % num
  if x == 1 then true else checkLoop x (k_check - 1) num

/-- The `while n_sub % 2 == 0` loop of `miller_rabin`, returning the final
`(n_sub, k)`: the odd part and the number of halvings.  (Python would loop
forever on input 0; the function is only ever applied to `n - 1` for odd
`n > 2`, and we return `(0, 0)` in that unreachable case.) -/
def splitTwos (n_sub : Nat) : Nat × Nat :=
  if _h : n_sub = 0 then (0, 0)
  else if n_sub % 2 = 0 then
    ((splitTwos (n_sub / 2)).1, (splitTwos (n_sub / 2)).2 + 1)
  else (n_sub, 0)
termination_by n_sub
decreasing_by omega

/-- Embedding of `miller_rabin(n, t)` from `rsa.py` with the random draws made
explicit: `witnesses` is the list of values produced by `randint(2, n - 1)`
across the `t` rounds.  The Python loop returns `False` as soon as one
witness fails `check` and `True` when all pass, which is `List.all`. -/
def miller_rabin (n : Nat) (witnesses : List Nat) : Bool :=
  let t := splitTwos (n - 1)
  witnesses.all fun a => check a t.2 t.1 n

/-- Embedding of `rsa(n, e, message)` from `rsa.py`: both encryption and
decryption are a single call to `mod_exp_55`. -/
def rsa (n e message : Int) : Int :=
  mod_exp_55 message e n

/-- Embedding of `key_gen()` from `rsa.py` once the two values `p` and `q`
produced by the `get_prime` retry loops are fixed (drawing them is the only
nondeterminism).  The remainder of the function is deterministic:
`b = 65537`, `n = p*q`, `phi = (p-1)*(q-1)`, `a = mod_inv(b, phi)` — and the
`mod_inv` call sits outside any `try`, so its `ValueError` (modelled by
`none`) propagates straight out of `key_gen`. -/
def key_gen (p q : Int) : Option ((Int × Int) × (Int × Int × Int)) :=
  let b : Int := 65537
  let n := p * q
  let phi := (p - 1) * (q - 1)
  match mod_inv b phi with
  | none => none
  | some a => some ((n, b), (p, q, a))

/-! ### Helper lemmas about modular arithmetic over `Int` -/

/-- Reducing the base modulo `n` does not change a power modulo `n`. -/
theorem int_pow_emod (a : Int) (k : Nat) (n : Int) :
    a ^ k % n = (a % n) ^ k % n := by
  induction k with
  | zero => rfl
  | succ k ih =>
    rw [pow_succ, pow_succ, Int.mul_emod, ih]
    conv_rhs => rw [Int.mul_emod]
    rw [Int.emod_emod]

/-- Reducing the right factor modulo `n` does not change a product modulo `n`. -/
theorem int_mul_emod_right_reduce (x y n : Int) :
    x * (y % n) % n = x * y % n := by
  rw [Int.mul_emod, Int.emod_emod, ← Int.mul_emod]

/-- Reducing the left factor modulo `n` does not change a product modulo `n`. -/
theorem int_mul_emod_left_reduce (x y n : Int) :
    (x % n) * y % n = x * y % n := by
  rw [Int.mul_emod, Int.emod_emod, ← Int.mul_emod]

/-- Invariant of the square-and-multiply loop: starting from accumulator
`res` with a positive iteration count, the loop computes
`b ^ ex * res mod modulo`. -/
theorem modExpLoop_eq (mo : Int) :
    ∀ ex : Nat, 1 ≤ ex → ∀ b res : Int,
      modExpLoop b ex mo res = b ^ ex * res % mo := by
  intro ex
  induction ex using Nat.strong_induction_on with
  | _ ex ih =>
    intro hex b res
    rw [modExpLoop.eq_def]
    rw [dif_neg (by omega : ¬ ex = 0)]
    by_cases hpar : ex % 2 = 0
    · rw [if_pos hpar]
      have hdvd : 2 ∣ ex := Nat.dvd_of_mod_eq_zero hpar
      have h2 : 1 ≤ ex / 2 := by omega
      rw [ih (ex / 2) (by omega) h2]
      rw [Int.mul_emod, ← int_pow_emod, ← Int.mul_emod,
        show b * b = b ^ 2 by ring, ← pow_mul, Nat.mul_div_cancel' hdvd]
    · rw [if_neg hpar]
      rcases Nat.lt_or_ge ex 2 with h1 | h2
      · have hex1 : ex = 1 := by omega
        subst hex1
        rw [show (1 : Nat) - 1 = 0 from rfl, modExpLoop.eq_def]
        simp [pow_one]
      · rw [ih (ex - 1) (by omega) (by omega)]
        rw [int_mul_emod_right_reduce, ← mul_assoc,
          show b ^ (ex - 1) * b = b ^ ex by
            rw [← pow_succ]; congr 1; omega]

/-- For a positive exponent and a positive modulus, `mod_exp_55` computes the
modular power. -/
theorem mod_exp_55_eq (b ex mo : Int) (hex : 1 ≤ ex) (_hmo : 0 < mo) :
    mod_exp_55 b ex mo = b ^ ex.toNat % mo := by
  rw [mod_exp_55, if_neg (by omega)]
  rw [modExpLoop_eq mo ex.toNat (by omega) b 1, mul_one]

/-! ### Claims about `mod_exp_55` and `rsa` -/

/-- C2 (counterexample): at base 2, exponent 0, modulus 1 the function
returns 1, whereas `2 ^ 0 mod 1 = 0`; so `mod_exp_55(b, ex, m)` does not
equal `b ^ ex mod m` on the whole claimed domain `ex ≥ 0`, `m > 0`, and the
clause "every call with modulus 1 returns 0" also fails at this input. -/
theorem c2_counterexample :
    mod_exp_55 2 0 1 = 1 ∧ (2 : Int) ^ ((0 : Int)).toNat % 1 = 0 := by
  constructor
  · rw [mod_exp_55, if_pos (by norm_num)]
  · decide

/-- C2 (amended): for every integer base `b`, exponent `ex ≥ 0`, and modulus
`m > 0`, `mod_exp_55 b ex m = b ^ ex mod m` except at the single corner
`ex = 0 ∧ m = 1`, where it returns 1; the call with exponent 0 returns 1 for
every base and every modulus, and every call with modulus 1 and positive
exponent returns 0. -/
theorem c2_mod_exp_correct (b ex m : Int) (hex : 0 ≤ ex) (hm : 0 < m) :
    (¬(ex = 0 ∧ m = 1) → mod_exp_55 b ex m = b ^ ex.toNat % m) ∧
    (ex = 0 → mod_exp_55 b ex m = 1) ∧
    (m = 1 → 1 ≤ ex → mod_exp_55 b ex m = 0) := by
  refine ⟨?_, ?_, ?_⟩
  · intro hnot
    rcases Int.lt_or_le 0 ex with hpos | hle
    · exact mod_exp_55_eq b ex m (by omega) hm
    · have hex0 : ex = 0 := le_antisymm hle hex
      have hm1 : m ≠ 1 := fun h => hnot ⟨hex0, h⟩
      subst hex0
      rw [mod_exp_55, if_pos (by norm_num)]
      rw [Int.toNat_zero, pow_zero, Int.emod_eq_of_lt (by norm_num) (by omega)]
  · intro hex0
    subst hex0
    rw [mod_exp_55, if_pos (by norm_num)]
  · intro hm1 hex1
    subst hm1
    rw [mod_exp_55_eq b ex 1 hex1 hm, Int.emod_one]

/-- C2 (witness): the amended theorem applied at base 3, exponent 4,
modulus 5. -/
theorem c2_witness : mod_exp_55 3 4 5 = 3 ^ ((4 : Int)).toNat % 5 :=
  (c2_mod_exp_correct 3 4 5 (by norm_num) (by norm_num)).1 (by norm_num)

/-- C6 (counterexample): calling the modular-exponentiation routine with the
negative exponent -1 does not fail; it silently returns 1 (the first line of
the Python body is `if exponent <= 0: return 1`). -/
theorem c6_counterexample : mod_exp_55 2 (-1) 5 = 1 := by
  rw [mod_exp_55, if_pos (by norm_num)]

/-- C6 (amended): for every base and every modulus, a call with a negative
exponent silently returns 1; no `InvalidExponentError` exists in the code
and no exception is raised. -/
theorem c6_negative_exponent_returns_one (b m ex : Int) (hex : ex < 0) :
    mod_exp_55 b ex m = 1 := by
  rw [mod_exp_55, if_pos (by omega)]

/-- C6 (witness): the amended theorem applied at base 3, exponent -2,
modulus 7. -/
theorem c6_witness : mod_exp_55 3 (-2) 7 = 1 :=
  c6_negative_exponent_returns_one 3 7 (-2) (by norm_num)

/-- C5 (counterexample): with public key `n = 15`, `e = 3` and the message
`m = 20 ≥ n`, encryption does not fail with `MessageTooLargeError` — the
code contains no range check and no such error; it returns the ordinary
value `20 ^ 3 mod 15 = 5`. -/
theorem c5_counterexample : rsa 15 3 20 = 5 := by
  rw [rsa, mod_exp_55_eq 20 3 15 (by norm_num) (by norm_num)]
  decide

/-- C5 (amended): `rsa(n, e, m)` performs no range check on the message:
for every integer `m` — including every `m ≥ n` — and every `n > 0`,
`e ≥ 1`, it returns `m ^ e mod n` and never raises. -/
theorem c5_encrypt_no_range_check (n e m : Int) (hn : 0 < n) (he : 1 ≤ e) :
    rsa n e m = m ^ e.toNat % n := by
  rw [rsa]
  exact mod_exp_55_eq m e n he hn

/-- C5 (witness): the amended theorem applied at `n = 15`, `e = 3`,
`m = 20` (a message at least as large as the modulus). -/
theorem c5_witness : rsa 15 3 20 = (20 : Int) ^ ((3 : Int)).toNat % 15 :=
  c5_encrypt_no_range_check 15 3 20 (by norm_num) (by norm_num)

/-! ### The extended Euclidean algorithm -/

/-- Invariant of the Euclidean loop: if the two tracked remainders are the
values `A * last_x + B * last_y` and `A * x + B * y`, then the loop returns
`gcd` of the remainders together with Bezout coefficients for `A` and `B`. -/
theorem egcdLoop_spec (A B : Int) :
    ∀ r lr : Nat, ∀ lx x ly y : Int,
      A * lx + B * ly = (lr : Int) → A * x + B * y = (r : Int) →
      (egcdLoop lr r lx x ly y).1 = Nat.gcd lr r ∧
      A * (egcdLoop lr r lx x ly y).2.1 + B * (egcdLoop lr r lx x ly y).2.2 =
        ((egcdLoop lr r lx x ly y).1 : Int) := by
  intro r
  induction r using Nat.strong_induction_on with
  | _ r ih =>
    intro lr lx x ly y hlr hr
    rw [egcdLoop.eq_def]
    by_cases h0 : r = 0
    · subst h0
      rw [dif_pos rfl]
      exact ⟨(Nat.gcd_zero_right lr).symm, hlr⟩
    · rw [dif_neg h0]
      have hlt : lr % r < r := Nat.mod_lt _ (Nat.pos_of_ne_zero h0)
      have hcast : (r : Int) * ((lr / r : Nat) : Int) + ((lr % r : Nat) : Int) =
          (lr : Int) := by exact_mod_cast Nat.div_add_mod lr r
      have hnew : A * (lx - ((lr / r : Nat) : Int) * x) +
          B * (ly - ((lr / r : Nat) : Int) * y) = ((lr % r : Nat) : Int) := by
        have hcomb : A * (lx - ((lr / r : Nat) : Int) * x) +
            B * (ly - ((lr / r : Nat) : Int) * y) =
            (A * lx + B * ly) - ((lr / r : Nat) : Int) * (A * x + B * y) := by
          ring
        rw [hcomb, hlr, hr]
        linear_combination -hcast
      obtain ⟨h1, h2⟩ := ih (lr % r) hlt r x (lx - ((lr / r : Nat) : Int) * x)
        y (ly - ((lr / r : Nat) : Int) * y) hr hnew
      refine ⟨?_, h2⟩
      rw [h1, Nat.gcd_comm r (lr % r), ← Nat.gcd_rec r lr, Nat.gcd_comm r lr]

/-- Specification of `extended_gcd`: the first component is the gcd of the
absolute values, and the sign-corrected coefficients satisfy the Bezout
identity for the original signed inputs. -/
theorem extended_gcd_spec (a0 b0 : Int) :
    (extended_gcd a0 b0).1 = (Nat.gcd a0.natAbs b0.natAbs : Int) ∧
    a0 * (extended_gcd a0 b0).2.1 + b0 * (extended_gcd a0 b0).2.2 =
      (extended_gcd a0 b0).1 := by
  have inv1 : ((a0.natAbs : Int)) * 1 + ((b0.natAbs : Int)) * 0 =
      ((a0.natAbs : Nat) : Int) := by ring
  have inv2 : ((a0.natAbs : Int)) * 0 + ((b0.natAbs : Int)) * 1 =
      ((b0.natAbs : Nat) : Int) := by ring
  obtain ⟨h1, h2⟩ := egcdLoop_spec (a0.natAbs : Int) (b0.natAbs : Int)
    b0.natAbs a0.natAbs 1 0 0 1 inv1 inv2
  have ha : a0 * (if a0 < 0 then (-1 : Int) else 1) = (a0.natAbs : Int) := by
    split <;> omega
  have hb : b0 * (if b0 < 0 then (-1 : Int) else 1) = (b0.natAbs : Int) := by
    split <;> omega
  constructor
  · simp only [extended_gcd]
    exact_mod_cast h1
  · simp only [extended_gcd]
    have hcomb : a0 * ((egcdLoop a0.natAbs b0.natAbs 1 0 0 1).2.1 *
        (if a0 < 0 then (-1 : Int) else 1)) +
        b0 * ((egcdLoop a0.natAbs b0.natAbs 1 0 0 1).2.2 *
        (if b0 < 0 then (-1 : Int) else 1)) =
        (a0 * (if a0 < 0 then (-1 : Int) else 1)) *
          (egcdLoop a0.natAbs b0.natAbs 1 0 0 1).2.1 +
        (b0 * (if b0 < 0 then (-1 : Int) else 1)) *
          (egcdLoop a0.natAbs b0.natAbs 1 0 0 1).2.2 := by ring
    rw [hcomb, ha, hb]
    exact h2

/-- C7: for all integers `a` and `b`, `extended_gcd(a, b)` returns a triple
`(g, x, y)` with `g = gcd(|a|, |b|)` and `a*x + b*y = g`, the Bezout identity
holding for the original signed inputs. -/
theorem c7_extended_gcd_correct (a b : Int) :
    (extended_gcd a b).1 = (Nat.gcd a.natAbs b.natAbs : Int) ∧
    a * (extended_gcd a b).2.1 + b * (extended_gcd a b).2.2 =
      (extended_gcd a b).1 :=
  extended_gcd_spec a b

/-! ### The modular inverse and key generation -/

/-- When the gcd is not 1, `mod_inv` takes the `raise ValueError` branch. -/
theorem mod_inv_none_of_gcd_ne_one (a m : Int) (h : Int.gcd a m ≠ 1) :
    mod_inv a m = none := by
  have h1 := (extended_gcd_spec a m).1
  have hne : (extended_gcd a m).1 ≠ 1 := by
    rw [h1]
    exact_mod_cast h
  simp only [mod_inv]
  rw [if_pos hne]

/-- When the gcd is 1, `mod_inv` returns `x % m`, which for positive `m`
lies in `[0, m)` and is a modular inverse of `a`. -/
theorem mod_inv_some_of_gcd_eq_one (a m : Int) (hm : 0 < m)
    (h : Int.gcd a m = 1) :
    ∃ r, mod_inv a m = some r ∧ 0 ≤ r ∧ r < m ∧ a * r ≡ 1 [ZMOD m] := by
  obtain ⟨h1, h2⟩ := extended_gcd_spec a m
  have hone : (extended_gcd a m).1 = 1 := by
    rw [h1]
    exact_mod_cast h
  refine ⟨(extended_gcd a m).2.1 % m, ?_, Int.emod_nonneg _ (by omega),
    Int.emod_lt_of_pos _ hm, ?_⟩
  · simp only [mod_inv]
    rw [if_neg (by rw [hone]; exact fun hcon => hcon rfl)]
  · show a * ((extended_gcd a m).2.1 % m) % m = 1 % m
    rw [int_mul_emod_right_reduce]
    have hax : a * (extended_gcd a m).2.1 =
        1 + m * (-(extended_gcd a m).2.2) := by
      rw [hone] at h2
      linear_combination h2
    rw [hax, Int.add_mul_emod_self_left]

/-- C3: for `m > 0`, when `gcd(a, m) = 1` the function `mod_inv` returns a
value `r` in `[0, m)` with `a * r ≡ 1 (mod m)`; when `gcd(a, m) ≠ 1` it
raises (modelled by `none`). -/
theorem c3_mod_inv_correct (a m : Int) (hm : 0 < m) :
    (Int.gcd a m = 1 →
      ∃ r, mod_inv a m = some r ∧ 0 ≤ r ∧ r < m ∧ a * r ≡ 1 [ZMOD m]) ∧
    (Int.gcd a m ≠ 1 → mod_inv a m = none) :=
  ⟨mod_inv_some_of_gcd_eq_one a m hm, mod_inv_none_of_gcd_ne_one a m⟩

/-- C3 (witness): the theorem applied at `mod_inv 3 5` (coprime pair) and at
`mod_inv 4 8`, the spec's own failing example. -/
theorem c3_witness :
    (∃ r, mod_inv 3 5 = some r ∧ 0 ≤ r ∧ r < 5 ∧ 3 * r ≡ 1 [ZMOD 5]) ∧
    mod_inv 4 8 = none :=
  ⟨(c3_mod_inv_correct 3 5 (by norm_num)).1 (by decide),
   (c3_mod_inv_correct 4 8 (by norm_num)).2 (by decide)⟩

/-- When `mod_inv(65537, (p-1)*(q-1))` fails, `key_gen` returns that failure
unchanged: the call sits outside any exception handler. -/
theorem key_gen_none_of_gcd_ne_one (p q : Int)
    (h : Int.gcd 65537 ((p - 1) * (q - 1)) ≠ 1) : key_gen p q = none := by
  simp only [key_gen]
  rw [mod_inv_none_of_gcd_ne_one _ _ h]

/-- C8 (counterexample): with the primes `p = 917519` (which is
`65537 * 14 + 1`) and `q = 3`, the totient `(p-1)*(q-1)` is divisible by
65537, `mod_inv` raises `ValueError`, and `key_gen` propagates the failure
to the caller: there is no retry of `q`, no retry budget, and no
`FatalKeyGenerationError` anywhere in the code. -/
theorem c8_counterexample :
    Nat.Prime 917519 ∧ Nat.Prime 3 ∧ key_gen 917519 3 = none :=
  ⟨by norm_num, by norm_num, key_gen_none_of_gcd_ne_one _ _ (by decide)⟩

/-- C8 (amended): whenever the modular-inverse computation
`mod_inv(e, phi)` fails inside `key_gen`, the error propagates directly to
the caller; `key_gen` performs no retry and defines no
`FatalKeyGenerationError`. -/
theorem c8_key_gen_propagates_failure (p q : Int)
    (h : Int.gcd 65537 ((p - 1) * (q - 1)) ≠ 1) : key_gen p q = none :=
  key_gen_none_of_gcd_ne_one p q h

/-- C8 (witness): the amended theorem applied at the prime pair
`(917519, 3)`. -/
theorem c8_witness : key_gen 917519 3 = none :=
  c8_key_gen_propagates_failure 917519 3 (by decide)

/-! ### The codec

Proof-side helpers: the base-26 digits of a number as natural numbers, and
the value of a most-significant-first digit list, mirroring `decodeDigits`
and `encodeVals` without the character wrapping. -/

/-- Lowercase ASCII letter test: code point between 97 and 122. -/
def isLowerAlpha (c : Char) : Bool := 97 ≤ c.toNat && c.toNat ≤ 122

/-- Base-26 digits of `n`, least significant first. -/
def natDigits (n : Nat) : List Nat :=
  if _h : n = 0 then [] else n % 26 :: natDigits (n / 26)
termination_by n
decreasing_by omega

/-- Value of a most-significant-first list of base-26 digits. -/
def natEncode : List Nat → Nat
  | [] => 0
  | d :: ds => d * 26 ^ ds.length + natEncode ds

theorem natDigits_zero : natDigits 0 = [] := by
  rw [natDigits.eq_def]
  rfl

theorem decodeDigits_eq_map : ∀ n : Nat,
    decodeDigits n = (natDigits n).map (fun d => Char.ofNat (d + 97)) := by
  intro n
  induction n using Nat.strong_induction_on with
  | _ n ih =>
    rw [decodeDigits.eq_def, natDigits.eq_def]
    by_cases hn : n = 0
    · rw [dif_pos hn, dif_pos hn]
      rfl
    · rw [dif_neg hn, dif_neg hn, List.map_cons, ih (n / 26) (by omega)]

theorem natDigits_lt : ∀ n : Nat, ∀ d ∈ natDigits n, d < 26 := by
  intro n
  induction n using Nat.strong_induction_on with
  | _ n ih =>
    intro d hd
    rw [natDigits.eq_def] at hd
    by_cases hn : n = 0
    · rw [dif_pos hn] at hd
      simp at hd
    · rw [dif_neg hn] at hd
      rcases List.mem_cons.mp hd with h | h
      · omega
      · exact ih (n / 26) (by omega) d h

/-- For `n ≠ 0` the digit list is nonempty and its last (most significant)
digit is nonzero. -/
theorem natDigits_concat : ∀ n : Nat, n ≠ 0 →
    ∃ L d, natDigits n = L ++ [d] ∧ d ≠ 0 ∧ d < 26 := by
  intro n
  induction n using Nat.strong_induction_on with
  | _ n ih =>
    intro hn
    rw [natDigits.eq_def, dif_neg hn]
    by_cases hq : n / 26 = 0
    · refine ⟨[], n % 26, ?_, by omega, by omega⟩
      rw [hq, natDigits_zero]
      rfl
    · obtain ⟨L, d, hLd, hd0, hd26⟩ := ih (n / 26) (by omega) hq
      exact ⟨n % 26 :: L, d, by rw [hLd]; rfl, hd0, hd26⟩

theorem natEncode_append (L : List Nat) (d : Nat) :
    natEncode (L ++ [d]) = natEncode L * 26 + d := by
  induction L with
  | nil => simp [natEncode]
  | cons x L ih =>
    have h1 : natEncode ((x :: L) ++ [d]) =
        x * 26 ^ (L ++ [d]).length + natEncode (L ++ [d]) := rfl
    have h2 : natEncode (x :: L) = x * 26 ^ L.length + natEncode L := rfl
    rw [h1, h2, ih]
    simp only [List.length_append, List.length_cons, List.length_nil]
    ring

theorem natEncode_rev_natDigits : ∀ n : Nat,
    natEncode (natDigits n).reverse = n := by
  intro n
  induction n using Nat.strong_induction_on with
  | _ n ih =>
    rw [natDigits.eq_def]
    by_cases hn : n = 0
    · rw [dif_pos hn]
      simp [natEncode, hn]
    · rw [dif_neg hn, List.reverse_cons, natEncode_append,
        ih (n / 26) (by omega)]
      omega

/-- Peeling digits back off an encoded value: for a digit list with nonzero
leading digit, `natDigits` recovers the reversed list. -/
theorem natDigits_natEncode (d : Nat) (hd0 : d ≠ 0) (hd26 : d < 26) :
    ∀ L : List Nat, (∀ x ∈ L, x < 26) →
      natDigits (natEncode (d :: L)) = (d :: L).reverse := by
  intro L
  induction L using List.reverseRecOn with
  | nil =>
    intro _
    have h1 : natEncode [d] = d := by simp [natEncode]
    rw [h1, natDigits.eq_def, dif_neg hd0]
    have hq : d / 26 = 0 := by omega
    have hm : d % 26 = d := by omega
    rw [hq, natDigits_zero, hm]
    rfl
  | append_singleton L x ihL =>
    intro hlt
    have hx : x < 26 := hlt x (by simp)
    have hL : ∀ y ∈ L, y < 26 := fun y hy => hlt y (by simp [hy])
    have hEeq : natEncode (d :: L) = d * 26 ^ L.length + natEncode L := rfl
    have hEne : natEncode (d :: L) ≠ 0 := by
      have hpos : 0 < d * 26 ^ L.length :=
        Nat.mul_pos (Nat.pos_of_ne_zero hd0) (pow_pos (by norm_num) _)
      omega
    have hstep : natEncode (d :: (L ++ [x])) = natEncode (d :: L) * 26 + x := by
      rw [show d :: (L ++ [x]) = (d :: L) ++ [x] from rfl, natEncode_append]
    rw [hstep, natDigits.eq_def,
      dif_neg (by omega : ¬(natEncode (d :: L) * 26 + x = 0))]
    have hmod : (natEncode (d :: L) * 26 + x) % 26 = x := by omega
    have hdiv : (natEncode (d :: L) * 26 + x) / 26 = natEncode (d :: L) := by
      omega
    rw [hmod, hdiv, ihL hL]
    simp

theorem digit_char_isLower : ∀ d : Nat, d < 26 →
    isLowerAlpha (Char.ofNat (d + 97)) = true := by decide

theorem digit_char_toNat : ∀ d : Nat, d < 26 →
    (Char.ofNat (d + 97)).toNat = d + 97 := by decide

theorem digit_char_ne_a : ∀ d : Nat, d < 26 → d ≠ 0 →
    Char.ofNat (d + 97) ≠ 'a' := by decide

theorem isLowerAlpha_bounds {c : Char} (h : isLowerAlpha c = true) :
    97 ≤ c.toNat ∧ c.toNat ≤ 122 := by
  simpa [isLowerAlpha, Bool.and_eq_true, decide_eq_true_eq] using h

/-- On lowercase input `encode` computes the natural-number digit value:
`pyLower` is the identity there and no subtraction goes negative. -/
theorem encode_eq_natEncode (s : List Char)
    (hs : ∀ c ∈ s, isLowerAlpha c = true) :
    encode s = (natEncode (s.map fun c => c.toNat - 97) : Int) := by
  induction s with
  | nil => rfl
  | cons c cs ih =>
    have h97 := isLowerAlpha_bounds (hs c (by simp))
    have hcs : ∀ x ∈ cs, isLowerAlpha x = true := fun x hx => hs x (by simp [hx])
    have hpy : pyLower c = c := by
      rw [pyLower, if_neg]
      push_neg
      omega
    have ihv : encodeVals (cs.map fun x => ((pyLower x).toNat : Int) - 97) =
        (natEncode (cs.map fun x => x.toNat - 97) : Int) := ih hcs
    simp only [encode, List.map_cons, encodeVals, natEncode, hpy,
      List.length_map] at *
    rw [ihv]
    have hsub : ((c.toNat : Int)) - 97 = ((c.toNat - 97 : Nat) : Int) := by
      omega
    rw [hsub]
    push_cast
    ring

/-- Wrapping digits as characters and unwrapping them is the identity. -/
theorem map_char_digit (s : List Char)
    (hs : ∀ c ∈ s, isLowerAlpha c = true) :
    ((s.map fun c => c.toNat - 97).map fun d => Char.ofNat (d + 97)) = s := by
  induction s with
  | nil => rfl
  | cons c cs ih =>
    have h97 := isLowerAlpha_bounds (hs c (by simp))
    have hcs : ∀ x ∈ cs, isLowerAlpha x = true := fun x hx => hs x (by simp [hx])
    simp only [List.map_cons, ih hcs, List.cons.injEq, and_true]
    rw [show c.toNat - 97 + 97 = c.toNat by omega]
    exact Char.ofNat_toNat c

/-- Unwrapping digit characters back to digits is the identity on digit
lists. -/
theorem map_digit_char_cancel (L : List Nat) (hL : ∀ d ∈ L, d < 26) :
    ((L.map fun d => Char.ofNat (d + 97)).map fun c => c.toNat - 97) = L := by
  induction L with
  | nil => rfl
  | cons d ds ih =>
    have hd : d < 26 := hL d (by simp)
    have hds : ∀ x ∈ ds, x < 26 := fun x hx => hL x (by simp [hx])
    simp only [List.map_cons, ih hds, List.cons.injEq, and_true]
    rw [digit_char_toNat d hd]
    omega

/-! ### Claims about the codec -/

/-- C4 (counterexample): the string "ab" consists of lowercase letters and
its encoding `0*26 + 1 = 1` is nonzero, yet the round trip fails:
`decode 1 = "b"`, the leading 'a' (digit 0) is lost.  So "encoding is
nonzero" does not suffice for the round-trip claim. -/
theorem c4_counterexample :
    (∀ x ∈ (['a', 'b'] : List Char), isLowerAlpha x = true) ∧
    encode ['a', 'b'] ≠ 0 ∧
    decode (encode ['a', 'b']).toNat ≠ DecodeResult.text ['a', 'b'] := by
  refine ⟨by decide, by decide, ?_⟩
  have h : (encode ['a', 'b']).toNat = 1 := by decide
  rw [h]
  have hd0 : decodeDigits 0 = [] := by
    rw [decodeDigits.eq_def]
    rfl
  have hd : decodeDigits 1 = ['b'] := by
    rw [decodeDigits.eq_def, dif_neg (by norm_num : ¬(1 : Nat) = 0)]
    rw [show (1 : Nat) / 26 = 0 from by norm_num, hd0]
  intro hcon
  rw [decode, if_neg (by norm_num), hd] at hcon
  exact absurd hcon (by decide)

/-- C4 (amended): the text-to-integer round trip
`decode (encode s) = s` holds for every nonempty string of lowercase
letters whose FIRST letter is not 'a' (the claim's weaker side condition
"encoding is nonzero" does not exclude strings such as "ab" that begin with
'a' and fail); moreover `encode "dog" = 2398` and
`decode 2398 = "dog"`. -/
theorem c4_codec_round_trip (c : Char) (cs : List Char)
    (hlow : ∀ x ∈ c :: cs, isLowerAlpha x = true) (hne : c ≠ 'a') :
    decode (encode (c :: cs)).toNat = DecodeResult.text (c :: cs) ∧
    encode ['d', 'o', 'g'] = 2398 ∧
    decode 2398 = DecodeResult.text ['d', 'o', 'g'] := by
  refine ⟨?_, by decide, ?_⟩
  · have h97 := isLowerAlpha_bounds (hlow c (by simp))
    have hd0 : c.toNat - 97 ≠ 0 := by
      intro h
      apply hne
      have hec : Char.ofNat c.toNat = c := Char.ofNat_toNat c
      have h2 : c.toNat = 97 := by omega
      rw [← hec, h2]
    have hd26 : c.toNat - 97 < 26 := by omega
    have henc : encode (c :: cs) =
        (natEncode ((c :: cs).map fun x => x.toNat - 97) : Int) :=
      encode_eq_natEncode _ hlow
    have hmap : (c :: cs).map (fun x => x.toNat - 97) =
        (c.toNat - 97) :: cs.map (fun x => x.toNat - 97) := rfl
    have hLlt : ∀ x ∈ cs.map (fun x => x.toNat - 97), x < 26 := by
      intro x hx
      obtain ⟨ch, hch, rfl⟩ := List.mem_map.mp hx
      have := isLowerAlpha_bounds (hlow ch (by simp [hch]))
      omega
    have hEne :
        natEncode ((c.toNat - 97) :: cs.map (fun x => x.toNat - 97)) ≠ 0 := by
      have heq :
          natEncode ((c.toNat - 97) :: cs.map (fun x => x.toNat - 97)) =
          (c.toNat - 97) * 26 ^ (cs.map (fun x => x.toNat - 97)).length +
            natEncode (cs.map (fun x => x.toNat - 97)) := rfl
      have hpos :
          0 < (c.toNat - 97) * 26 ^ (cs.map (fun x => x.toNat - 97)).length :=
        Nat.mul_pos (Nat.pos_of_ne_zero hd0) (pow_pos (by norm_num) _)
      omega
    rw [henc, hmap, Int.toNat_natCast, decode, if_neg hEne,
      decodeDigits_eq_map, natDigits_natEncode (c.toNat - 97) hd0 hd26 _ hLlt]
    congr 1
    rw [← hmap]
    rw [List.map_reverse, List.reverse_reverse]
    exact map_char_digit _ hlow
  · have h : decodeDigits 2398 = ['g', 'o', 'd'] := by
      rw [decodeDigits.eq_def]; norm_num
      rw [decodeDigits.eq_def]; norm_num
      rw [decodeDigits.eq_def]; norm_num
      rw [decodeDigits.eq_def]; rfl
    rw [decode, if_neg (by norm_num), h]
    rfl

/-- C4 (witness): the amended theorem applied to the string "dog". -/
theorem c4_witness :
    decode (encode ['d', 'o', 'g']).toNat = DecodeResult.text ['d', 'o', 'g'] ∧
    encode ['d', 'o', 'g'] = 2398 ∧
    decode 2398 = DecodeResult.text ['d', 'o', 'g'] :=
  c4_codec_round_trip 'd' ['o', 'g'] (by decide) (by decide)

/-- C10: for every `n > 0`, `decode n` is a nonempty string of lowercase
letters whose first letter is not 'a', and `encode (decode n) = n`: the
integer-to-text round trip holds for all positive integers with no
exclusions. -/
theorem c10_decode_encode_round_trip (n : Nat) (hn : 0 < n) :
    ∃ cs : List Char, decode n = DecodeResult.text cs ∧ cs ≠ [] ∧
      (∀ c ∈ cs, isLowerAlpha c = true) ∧ cs.head? ≠ some 'a' ∧
      encode cs = (n : Int) := by
  obtain ⟨L, d, hLd, hd0, hd26⟩ := natDigits_concat n (by omega)
  have hlowAll : ∀ c ∈ (decodeDigits n).reverse, isLowerAlpha c = true := by
    intro c hc
    rw [List.mem_reverse, decodeDigits_eq_map] at hc
    obtain ⟨x, hx, rfl⟩ := List.mem_map.mp hc
    exact digit_char_isLower x (natDigits_lt n x hx)
  refine ⟨(decodeDigits n).reverse, ?_, ?_, hlowAll, ?_, ?_⟩
  · rw [decode, if_neg (by omega)]
  · rw [decodeDigits_eq_map, hLd]
    simp
  · rw [decodeDigits_eq_map, hLd, List.map_append]
    have hsplit :
        ((L.map fun x => Char.ofNat (x + 97)) ++
            ([d].map fun x => Char.ofNat (x + 97))).reverse =
          Char.ofNat (d + 97) ::
            (L.map fun x => Char.ofNat (x + 97)).reverse := by
      simp
    rw [hsplit]
    simp only [List.head?_cons, ne_eq, Option.some.injEq]
    exact digit_char_ne_a d hd26 hd0
  · rw [encode_eq_natEncode _ hlowAll, decodeDigits_eq_map]
    rw [List.map_reverse]
    rw [map_digit_char_cancel _ (natDigits_lt n)]
    rw [natEncode_rev_natDigits n]

/-- C10 (witness): the theorem applied at `n = 2398`. -/
theorem c10_witness :
    ∃ cs : List Char, decode 2398 = DecodeResult.text cs ∧ cs ≠ [] ∧
      (∀ c ∈ cs, isLowerAlpha c = true) ∧ cs.head? ≠ some 'a' ∧
      encode cs = (2398 : Int) :=
  c10_decode_encode_round_trip 2398 (by norm_num)

/-! ### The RSA round trip -/

/-- In `ZMod r` for a prime `r`, exponents congruent to 1 modulo `r - 1`
act as the identity (both on zero and, via Fermat, on nonzero elements). -/
theorem zmod_pow_cycle (r : Nat) (hr : Nat.Prime r) (s : Nat) (a : ZMod r) :
    a ^ ((r - 1) * s + 1) = a := by
  haveI : Fact (Nat.Prime r) := ⟨hr⟩
  by_cases ha : a = 0
  · subst ha
    rw [zero_pow (by omega)]
  · rw [pow_add, pow_mul, ZMod.pow_card_sub_one_eq_one ha, one_pow, pow_one,
      one_mul]

/-- The same fact expressed as a congruence of natural numbers. -/
theorem pow_mod_prime_cycle (r : Nat) (hr : Nat.Prime r) (s m : Nat) :
    m ^ ((r - 1) * s + 1) ≡ m [MOD r] := by
  have h := zmod_pow_cycle r hr s (m : ZMod r)
  have hcast : ((m ^ ((r - 1) * s + 1) : Nat) : ZMod r) = ((m : Nat) : ZMod r) := by
    push_cast
    exact h
  exact (ZMod.natCast_eq_natCast_iff _ _ _).mp hcast

/-- For distinct primes the totient `(p-1)*(q-1)` is at least 2. -/
theorem phi_two_le (p q : Nat) (hp : Nat.Prime p) (hq : Nat.Prime q)
    (hpq : p ≠ q) : 2 ≤ (p - 1) * (q - 1) := by
  have h2p := hp.two_le
  have h2q := hq.two_le
  by_cases hp2 : p = 2
  · subst hp2
    have hq3 : 3 ≤ q := by omega
    omega
  · have h1 : 2 ≤ p - 1 := by omega
    have h2 : 1 ≤ q - 1 := by omega
    calc 2 = 2 * 1 := by norm_num
    _ ≤ (p - 1) * (q - 1) := Nat.mul_le_mul h1 h2

/-- For a valid RSA key, the exponents are positive and
`m ^ (e * d) ≡ m (mod p*q)` for every message `m`. -/
theorem rsa_pow_identity (p q e d m : Nat) (hp : Nat.Prime p)
    (hq : Nat.Prime q) (hpq : p ≠ q)
    (hed : e * d ≡ 1 [MOD (p - 1) * (q - 1)]) :
    1 ≤ e ∧ 1 ≤ d ∧ m ^ (e * d) ≡ m [MOD p * q] := by
  have hphi := phi_two_le p q hp hq hpq
  have hed1 : e * d % ((p - 1) * (q - 1)) = 1 := by
    have h := hed
    unfold Nat.ModEq at h
    rwa [Nat.mod_eq_of_lt (show 1 < (p - 1) * (q - 1) by omega)] at h
  obtain ⟨t, hsplit⟩ : ∃ t, e * d = (p - 1) * (q - 1) * t + 1 := by
    refine ⟨e * d / ((p - 1) * (q - 1)), ?_⟩
    conv_lhs => rw [← Nat.div_add_mod (e * d) ((p - 1) * (q - 1))]
    rw [hed1]
  have hpos : 0 < e * d := by omega
  have he : 1 ≤ e := Nat.pos_of_ne_zero (by rintro rfl; simp at hpos)
  have hd : 1 ≤ d := Nat.pos_of_ne_zero (by rintro rfl; simp at hpos)
  refine ⟨he, hd, ?_⟩
  have hcop : Nat.Coprime p q := (Nat.coprime_primes hp hq).mpr hpq
  have hmp : m ^ (e * d) ≡ m [MOD p] := by
    have hre : e * d = (p - 1) * ((q - 1) * t) + 1 := by
      rw [hsplit]
      ring
    rw [hre]
    exact pow_mod_prime_cycle p hp _ m
  have hmq : m ^ (e * d) ≡ m [MOD q] := by
    have hre : e * d = (q - 1) * ((p - 1) * t) + 1 := by
      rw [hsplit]
      ring
    rw [hre]
    exact pow_mod_prime_cycle q hq _ m
  exact (Nat.modEq_and_modEq_iff_modEq_mul hcop).mp ⟨hmp, hmq⟩

/-- C1: for every keypair satisfying the RSA key invariants (`p`, `q`
distinct primes, modulus `p*q`, `e*d ≡ 1 (mod (p-1)*(q-1))`) and every
message `0 ≤ m < p*q`, decrypting the encryption of `m` with `rsa`
recovers `m`. -/
theorem c1_rsa_round_trip (p q e d m : Nat) (hp : Nat.Prime p)
    (hq : Nat.Prime q) (hpq : p ≠ q)
    (hed : e * d ≡ 1 [MOD (p - 1) * (q - 1)]) (hm : m < p * q) :
    rsa ((p * q : Nat) : Int) ((d : Nat) : Int)
      (rsa ((p * q : Nat) : Int) ((e : Nat) : Int) ((m : Nat) : Int)) =
      ((m : Nat) : Int) := by
  obtain ⟨he, hd, hkey⟩ := rsa_pow_identity p q e d m hp hq hpq hed
  have hn : (0 : Int) < ((p * q : Nat) : Int) := by
    have h1 : 0 < p * q := Nat.mul_pos (by have := hp.two_le; omega)
      (by have := hq.two_le; omega)
    exact_mod_cast h1
  have hinner : rsa ((p * q : Nat) : Int) ((e : Nat) : Int) ((m : Nat) : Int) =
      ((m : Nat) : Int) ^ e % ((p * q : Nat) : Int) := by
    rw [rsa, mod_exp_55_eq _ _ _ (by exact_mod_cast he) hn, Int.toNat_natCast]
  have houter : rsa ((p * q : Nat) : Int) ((d : Nat) : Int)
      (((m : Nat) : Int) ^ e % ((p * q : Nat) : Int)) =
      (((m : Nat) : Int) ^ e % ((p * q : Nat) : Int)) ^ d %
        ((p * q : Nat) : Int) := by
    rw [rsa, mod_exp_55_eq _ _ _ (by exact_mod_cast hd) hn, Int.toNat_natCast]
  rw [hinner, houter, ← int_pow_emod, ← pow_mul]
  have hcast : (((m : Nat) : Int)) ^ (e * d) = ((m ^ (e * d) : Nat) : Int) := by
    push_cast
    ring
  rw [hcast, ← Int.natCast_mod]
  have hfin : m ^ (e * d) % (p * q) = m := by
    have h1 : m ^ (e * d) % (p * q) = m % (p * q) := hkey
    rw [h1, Nat.mod_eq_of_lt hm]
  rw [hfin]

/-- C1 (witness): the theorem applied to the keypair `p = 3`, `q = 5`,
`e = d = 3` (indeed `9 ≡ 1 (mod 8)`) and the message `m = 2`. -/
theorem c1_witness :
    rsa ((3 * 5 : Nat) : Int) ((3 : Nat) : Int)
      (rsa ((3 * 5 : Nat) : Int) ((3 : Nat) : Int) ((2 : Nat) : Int)) =
      ((2 : Nat) : Int) :=
  c1_rsa_round_trip 3 5 3 3 2 (by norm_num) (by norm_num) (by norm_num)
    (by decide) (by norm_num)

/-! ### Miller-Rabin on primes -/

/-- Proof-side helper: `j`-fold iteration of the squaring step
`x := x ^ 2 % num` performed by `checkLoop`. -/
def sqIter : Nat → Nat → Nat → Nat
  | 0, x, _ => x
  | j + 1, x, num => sqIter j (x ^ 2 % num) num

/-- If some square in the chain examined by `checkLoop` (including the
final, `rounds`-th one) equals `num - 1`, the loop reports success. -/
theorem checkLoop_true_of : ∀ (c x num : Nat),
    (∃ j, j ≤ c ∧ sqIter j x num = num - 1) → checkLoop x c num = true := by
  intro c
  induction c with
  | zero =>
    intro x num h
    obtain ⟨j, hj, hval⟩ := h
    have hj0 : j = 0 := by omega
    subst hj0
    simp only [checkLoop, beq_iff_eq]
    exact hval
  | succ c ih =>
    intro x num h
    obtain ⟨j, hj, hval⟩ := h
    by_cases hx : x = num - 1
    · simp [checkLoop, hx]
    · cases j with
      | zero => exact absurd hval hx
      | succ j' =>
        have hrec : checkLoop (x ^ 2 % num) c num = true :=
          ih (x ^ 2 % num) num ⟨j', by omega, hval⟩
        simp [checkLoop, hx, hrec]

/-- Iterated squaring modulo `p` of `a ^ m % p` computes
`a ^ (2 ^ j * m) % p`. -/
theorem sqIter_pow (p : Nat) : ∀ (j a m : Nat),
    sqIter j (a ^ m % p) p = a ^ (2 ^ j * m) % p := by
  intro j
  induction j with
  | zero =>
    intro a m
    simp [sqIter]
  | succ j ih =>
    intro a m
    show sqIter j ((a ^ m % p) ^ 2 % p) p = _
    have h1 : (a ^ m % p) ^ 2 % p = (a ^ 2) ^ m % p := by
      rw [← Nat.pow_mod, ← pow_mul, mul_comm, pow_mul]
    rw [h1, ih (a ^ 2) m, ← pow_mul]
    congr 1
    ring

/-- In the field `ZMod p`, if `A ^ (2^k * m) = 1` then either `A ^ m = 1`
or some intermediate power `A ^ (2^j * m)` with `j < k` equals `-1`
(square roots of 1 are plus or minus 1). -/
theorem zmod_pow_chain (p : Nat) (hp : Nat.Prime p) (A : ZMod p)
    (_hA : A ≠ 0) :
    ∀ k m : Nat, A ^ (2 ^ k * m) = 1 →
      A ^ m = 1 ∨ ∃ j, j < k ∧ A ^ (2 ^ j * m) = -1 := by
  haveI : Fact (Nat.Prime p) := ⟨hp⟩
  intro k
  induction k with
  | zero =>
    intro m h
    left
    simpa using h
  | succ k ih =>
    intro m h
    have he : 2 ^ (k + 1) * m = 2 ^ k * m * 2 := by ring
    have hsq : A ^ (2 ^ k * m) * A ^ (2 ^ k * m) = 1 := by
      rw [← pow_add]
      rw [show 2 ^ k * m + 2 ^ k * m = 2 ^ (k + 1) * m by ring]
      exact h
    rcases mul_self_eq_one_iff.mp hsq with h1 | hm1
    · rcases ih m h1 with hl | ⟨j, hj, hv⟩
      · exact Or.inl hl
      · exact Or.inr ⟨j, by omega, hv⟩
    · exact Or.inr ⟨k, by omega, hm1⟩

/-- Specification of the halving loop: it factors its nonzero input as
`2 ^ k` times an odd part. -/
theorem splitTwos_spec : ∀ x : Nat, x ≠ 0 →
    x = 2 ^ (splitTwos x).2 * (splitTwos x).1 ∧ (splitTwos x).1 % 2 = 1 := by
  intro x
  induction x using Nat.strong_induction_on with
  | _ x ih =>
    intro hx
    rw [splitTwos.eq_def, dif_neg hx]
    by_cases he : x % 2 = 0
    · rw [if_pos he]
      obtain ⟨h1, h2⟩ := ih (x / 2) (by omega) (by omega)
      refine ⟨?_, h2⟩
      have hx2 : x = 2 * (x / 2) := by omega
      calc x = 2 * (x / 2) := hx2
      _ = 2 * (2 ^ (splitTwos (x / 2)).2 * (splitTwos (x / 2)).1) := by
        rw [← h1]
      _ = 2 ^ ((splitTwos (x / 2)).2 + 1) * (splitTwos (x / 2)).1 := by
        ring
    · rw [if_neg he]
      exact ⟨by simp, by omega⟩

/-- The witness check of Miller-Rabin never rejects a witness when `p` is an
odd prime: with `p - 1 = 2 ^ k * m` and `1 ≤ k`, `check a k m p` is true
for every `a` in `[2, p-1]`. -/
theorem check_true_of_prime (p : Nat) (hp : Nat.Prime p)
    (hgt : 2 < p) (k m a : Nat) (hkm : p - 1 = 2 ^ k * m) (hk : 1 ≤ k)
    (ha2 : 2 ≤ a) (hap : a ≤ p - 1) : check a k m p = true := by
  haveI : Fact (Nat.Prime p) := ⟨hp⟩
  haveI : NeZero p := ⟨by omega⟩
  haveI : Fact (1 < p) := ⟨by omega⟩
  have hA : ((a : Nat) : ZMod p) ≠ 0 := by
    intro h0
    have hval : ((a : Nat) : ZMod p).val = a % p := ZMod.val_natCast a
    rw [h0, ZMod.val_zero, Nat.mod_eq_of_lt (by omega)] at hval
    omega
  have hfer : ((a : Nat) : ZMod p) ^ (2 ^ k * m) = 1 := by
    rw [← hkm]
    exact ZMod.pow_card_sub_one_eq_one hA
  rcases zmod_pow_chain p hp _ hA k m hfer with h1 | ⟨j, hj, hneg⟩
  · have hx1 : a ^ m % p = 1 := by
      have hc : ((a ^ m : Nat) : ZMod p) = 1 := by
        push_cast
        exact h1
      have hv := congrArg ZMod.val hc
      rwa [ZMod.val_natCast, ZMod.val_one] at hv
    simp [check, hx1]
  · have hm1cast : ((p - 1 : Nat) : ZMod p) = -1 := by
      have hps : ((p : Nat) : ZMod p) = 0 := ZMod.natCast_self p
      rw [Nat.cast_sub (by omega : 1 ≤ p), hps, Nat.cast_one]
      ring
    have hval : a ^ (2 ^ j * m) % p = p - 1 := by
      have hc : ((a ^ (2 ^ j * m) : Nat) : ZMod p) = ((p - 1 : Nat) : ZMod p) := by
        rw [hm1cast]
        push_cast
        exact hneg
      have hv := congrArg ZMod.val hc
      rwa [ZMod.val_natCast, ZMod.val_natCast,
        Nat.mod_eq_of_lt (by omega : p - 1 < p)] at hv
    by_cases hx1 : a ^ m % p = 1
    · simp [check, hx1]
    · have hsq : sqIter j (a ^ m % p) p = p - 1 := by
        rw [sqIter_pow]
        exact hval
      have hcl : checkLoop (a ^ m % p) (k - 1) p = true :=
        checkLoop_true_of (k - 1) (a ^ m % p) p ⟨j, by omega, hsq⟩
      simp [check, hx1, hcl]

/-- Miller-Rabin never rejects an odd prime, whatever witnesses the random
source produces in `[2, n-1]`. -/
theorem miller_rabin_prime (n : Nat) (hn : Nat.Prime n) (hodd : n % 2 = 1)
    (h2 : 2 < n) (witnesses : List Nat)
    (hw : ∀ a ∈ witnesses, 2 ≤ a ∧ a ≤ n - 1) :
    miller_rabin n witnesses = true := by
  simp only [miller_rabin]
  obtain ⟨hsplit, hodd'⟩ := splitTwos_spec (n - 1) (by omega)
  have hk : 1 ≤ (splitTwos (n - 1)).2 := by
    rcases Nat.eq_zero_or_pos (splitTwos (n - 1)).2 with h0 | h
    · rw [h0, pow_zero, one_mul] at hsplit
      omega
    · exact h
  rw [List.all_eq_true]
  intro a ha
  obtain ⟨h2a, hle⟩ := hw a ha
  exact check_true_of_prime n hn h2 _ _ a hsplit hk h2a hle

/-- C9: for each `n` in {7, 11, 13, 97, 7919} and every sequence of witness
values in `[2, n-1]` that the random source may produce, `miller_rabin`
returns true — the test never rejects these known primes. -/
theorem c9_miller_rabin_accepts_primes (n : Nat)
    (hn : n = 7 ∨ n = 11 ∨ n = 13 ∨ n = 97 ∨ n = 7919)
    (witnesses : List Nat) (hw : ∀ a ∈ witnesses, 2 ≤ a ∧ a ≤ n - 1) :
    miller_rabin n witnesses = true := by
  rcases hn with rfl | rfl | rfl | rfl | rfl <;>
    exact miller_rabin_prime _ (by norm_num) (by norm_num) (by norm_num) _ hw

/-- C9 (witness): the theorem applied at `n = 7` with the witness draws
`[2, 3, 6]`. -/
theorem c9_witness : miller_rabin 7 [2, 3, 6] = true :=
  c9_miller_rabin_accepts_primes 7 (by norm_num) [2, 3, 6] (by decide)
